import Mathlib

/-!
Shallow embedding of the GrandPal backend memory subsystem
(`src/backend/src/memory_service.py`) and session brain
(`src/backend/src/gemini_service.py`).

Timestamps (`datetime.now().isoformat()`) are modelled as opaque strings
passed explicitly as a `now` argument.  Durable storage (the per-user JSON
file) is modelled as a `FileContent` value carried alongside the in-memory
record; `save` both stamps `last_conversation` and writes the whole record.
Provider/model calls are modelled as explicit parameters (`Option String`
for a chat response, an abstract JSON parser for extraction).
-/

namespace GrandPal

/-- One entry of `profile["family_members"]`: a dict
`{"name": ..., "relation": ..., "details": ...}`.  `details` defaults to the
empty string (Python treats `""` as falsy wherever `details` is tested). -/
structure FamilyMember where
  name : String
  relation : String
  details : String
deriving DecidableEq

/-- One entry of `stories`: `{"summary": ..., "date": ...}`. -/
structure Story where
  summary : String
  date : String
deriving DecidableEq

/-- One entry of `profile["important_dates"]` (schema present, never
populated by the current code). -/
structure ImportantDate where
  date : String
  event : String
deriving DecidableEq

/-- The `profile` sub-dict of a user memory record. -/
structure Profile where
  family_members : List FamilyMember
  health_notes : List String
  interests : List String
  important_dates : List ImportantDate
  location : Option String
  occupation : Option String
deriving DecidableEq

/-- The full user memory record (`self.memories`). -/
structure Memories where
  user_name : String
  created_at : String
  last_conversation : Option String
  profile : Profile
  stories : List Story
  recent_topics : List String
  conversation_count : Nat
deriving DecidableEq

/-- The durable storage file for one user: absent, present but unparseable
(`json.JSONDecodeError` on load), or holding a record previously written by
`save` (the only writer in the codebase, and it always writes a full
record). -/
inductive FileContent where
  | absent : FileContent
  | corrupt : FileContent
  | stored : Memories → FileContent
deriving DecidableEq

/-- In-memory record together with the user's storage file. -/
structure MemState where
  memories : Memories
  file : FileContent
deriving DecidableEq

/-- The default record built by `_load_memories` when the file is absent or
unparseable (source lines 50-66). -/
def defaultMemories (user_name now : String) : Memories :=
  { user_name := user_name
    created_at := now
    last_conversation := none
    profile :=
      { family_members := []
        health_notes := []
        interests := []
        important_dates := []
        location := none
        occupation := none }
    stories := []
    recent_topics := []
    conversation_count := 0 }

/-- `UserMemory._load_memories`: return the parsed file content when the
file exists and parses, else the default structure. -/
def loadMemories (user_name now : String) : FileContent → Memories
  | FileContent.stored m => m
  | _ => defaultMemories user_name now

/-- `UserMemory.__init__`: load the record, keep the file as is. -/
def initState (user_name now : String) (file : FileContent) : MemState :=
  { memories := loadMemories user_name now file, file := file }

/-- `UserMemory.save`: stamp `last_conversation` with the current time and
write the entire record to the file. -/
def save (s : MemState) (now : String) : MemState :=
  let m := { s.memories with last_conversation := some now }
  { memories := m, file := FileContent.stored m }

/-- Python list slicing `l[-n:]`: the last `n` elements (all of them when
`l` is shorter). -/
def takeLast (n : Nat) (l : List α) : List α :=
  (l.reverse.take n).reverse

/-- Python `str.lower()`: lower-case every character.  (Structurally
recursive formulation of `String.toLower`, so that proofs can evaluate
it.) -/
def strLower (s : String) : String :=
  { data := s.data.map Char.toLower }

/-- Formatting of one family member inside `get_context_for_conversation`:
`Name (relation)` with ` - details` appended when `details` is truthy. -/
def formatMember (m : FamilyMember) : String :=
  m.name ++ " (" ++ m.relation ++ ")" ++
    (if m.details = "" then "" else " - " ++ m.details)

/-- `UserMemory.get_context_for_conversation` (source lines 74-109).  The
name rendered is `self.user_name`, passed separately from the record. -/
def get_context_for_conversation (user_name : String) (mem : Memories) : String :=
  let parts1 : List String := ["User's name: " ++ user_name]
  let family := mem.profile.family_members
  let parts2 := parts1 ++
    (if family.isEmpty then [] else
      ["Family: " ++ String.intercalate ", " ((family.take 5).map formatMember)])
  let health := mem.profile.health_notes
  let parts3 := parts2 ++
    (if health.isEmpty then [] else
      ["Health notes: " ++ String.intercalate "; " (takeLast 3 health)])
  let interests := mem.profile.interests
  let parts4 := parts3 ++
    (if interests.isEmpty then [] else
      ["Interests: " ++ String.intercalate ", " (interests.take 5)])
  let recent := mem.recent_topics
  let parts5 := parts4 ++
    (if recent.isEmpty then [] else
      ["Recent conversation topics: " ++ String.intercalate ", " (takeLast 3 recent)])
  let count := mem.conversation_count
  let parts6 := parts5 ++
    (if count > 0 then
      ["You've had " ++ toString count ++ " conversations with " ++ user_name]
    else [])
  String.intercalate "\n" parts6

/-- The spec's `contextSummary()` algorithm, transcribed from its numbered
steps: optional lines 1-6, empty sections omitted, joined by newline. -/
def contextSummarySpec (user_name : String) (mem : Memories) : String :=
  let line1 : Option String := some ("User's name: " ++ user_name)
  let line2 : Option String :=
    if mem.profile.family_members = [] then none else
      some ("Family: " ++ String.intercalate ", "
        ((mem.profile.family_members.take 5).map formatMember))
  let line3 : Option String :=
    if mem.profile.health_notes = [] then none else
      some ("Health notes: " ++
        String.intercalate "; " (takeLast 3 mem.profile.health_notes))
  let line4 : Option String :=
    if mem.profile.interests = [] then none else
      some ("Interests: " ++ String.intercalate ", " (mem.profile.interests.take 5))
  let line5 : Option String :=
    if mem.recent_topics = [] then none else
      some ("Recent conversation topics: " ++
        String.intercalate ", " (takeLast 3 mem.recent_topics))
  let line6 : Option String :=
    if 0 < mem.conversation_count then
      some ("You've had " ++ toString mem.conversation_count ++
        " conversations with " ++ user_name)
    else none
  String.intercalate "\n" ([line1, line2, line3, line4, line5, line6].filterMap id)

/-- `UserMemory.increment_conversation`. -/
def increment_conversation (s : MemState) (now : String) : MemState :=
  let m2 := { s.memories with conversation_count := s.memories.conversation_count + 1 }
  save { s with memories := m2 } now

/-- The update loop of `add_family_member`: find the first member whose
name matches case-insensitively, update its relation (and details when the
new details are truthy); `none` when no member matches. -/
def updateMember (name relation details : String) :
    List FamilyMember → Option (List FamilyMember)
  | [] => none
  | m :: rest =>
    if strLower m.name = strLower name then
      let d2 := if details = "" then m.details else details
      some ({ m with relation := relation, details := d2 } :: rest)
    else
      (updateMember name relation details rest).map (fun r => m :: r)

/-- `UserMemory.add_family_member` (source lines 116-131): update in place
when a case-insensitive name match exists, else append; save either way. -/
def add_family_member (s : MemState) (name relation details now : String) : MemState :=
  match updateMember name relation details s.memories.profile.family_members with
  | some family2 =>
    let p2 := { s.memories.profile with family_members := family2 }
    save { s with memories := { s.memories with profile := p2 } } now
  | none =>
    let newMember : FamilyMember := { name := name, relation := relation, details := details }
    let family2 := s.memories.profile.family_members ++ [newMember]
    let p2 := { s.memories.profile with family_members := family2 }
    save { s with memories := { s.memories with profile := p2 } } now

/-- `UserMemory.add_interest` (source lines 133-138): append and save only
when no case-insensitive duplicate is present; otherwise the method does
nothing (no append, no save). -/
def add_interest (s : MemState) (interest now : String) : MemState :=
  let interests := s.memories.profile.interests
  if strLower interest ∈ interests.map strLower then s
  else
    let p2 := { s.memories.profile with interests := interests ++ [interest] }
    save { s with memories := { s.memories with profile := p2 } } now

/-- `UserMemory.add_health_note`: append, keep only the last 10, save. -/
def add_health_note (s : MemState) (note now : String) : MemState :=
  let p2 := { s.memories.profile with health_notes := takeLast 10 (s.memories.profile.health_notes ++ [note]) }
  save { s with memories := { s.memories with profile := p2 } } now

/-- `UserMemory.add_recent_topic`: append, keep only the last 5, save. -/
def add_recent_topic (s : MemState) (topic now : String) : MemState :=
  let m2 := { s.memories with recent_topics := takeLast 5 (s.memories.recent_topics ++ [topic]) }
  save { s with memories := m2 } now

/-- `UserMemory.add_story`: append `{summary, date}`, keep only the last
20, save. -/
def add_story (s : MemState) (summary now : String) : MemState :=
  let entry : Story := { summary := summary, date := now }
  let m2 := { s.memories with stories := takeLast 20 (s.memories.stories ++ [entry]) }
  save { s with memories := m2 } now

/-- One call to a `UserMemory` mutator, for reasoning about arbitrary call
sequences. -/
inductive Op where
  | famMember : String → String → String → Op
  | interest : String → Op
  | healthNote : String → Op
  | recentTopic : String → Op
  | story : String → Op
  | incConversation : Op
deriving DecidableEq

/-- Apply one mutator call at time `now`. -/
def applyOp (s : MemState) (now : String) : Op → MemState
  | Op.famMember n r d => add_family_member s n r d now
  | Op.interest i => add_interest s i now
  | Op.healthNote h => add_health_note s h now
  | Op.recentTopic t => add_recent_topic s t now
  | Op.story t => add_story s t now
  | Op.incConversation => increment_conversation s now

/-- Run a sequence of mutator calls, each with its own timestamp. -/
def runOps (s : MemState) : List (String × Op) → MemState
  | [] => s
  | p :: rest => runOps (applyOp s p.1 p.2) rest

/-- The health-note arguments of a call sequence, in order. -/
def healthArgs (ops : List (String × Op)) : List String :=
  ops.filterMap (fun p =>
    match p.2 with
    | Op.healthNote h => some h
    | _ => none)

/-- The recent-topic arguments of a call sequence, in order. -/
def topicArgs (ops : List (String × Op)) : List String :=
  ops.filterMap (fun p =>
    match p.2 with
    | Op.recentTopic t => some t
    | _ => none)

/-- The story summaries of a call sequence, in order. -/
def storyArgs (ops : List (String × Op)) : List String :=
  ops.filterMap (fun p =>
    match p.2 with
    | Op.story t => some t
    | _ => none)

/-- Index of the first character satisfying `p`, if any. -/
def firstIdx (p : Char → Bool) : List Char → Option Nat
  | [] => none
  | c :: cs => if p c then some 0 else (firstIdx p cs).map (fun k => k + 1)

/-- Index of the last character satisfying `p`, if any. -/
def lastIdx (p : Char → Bool) (cs : List Char) : Option Nat :=
  (firstIdx p cs.reverse).map (fun k => cs.length - 1 - k)

/-- The span found by `re.search` with pattern open-brace `.*` close-brace
under `re.DOTALL`: the match starts at the first open brace that has a
close brace somewhere after it, and greedily extends to the last close
brace of the text.  `none` when the text holds no such span. -/
def extractSpan (cs : List Char) : Option (List Char) :=
  match firstIdx (fun c => c = '{') cs with
  | none => none
  | some i =>
    let tail := (cs.drop i).drop 1
    match lastIdx (fun c => c = '}') tail with
    | none => none
    | some j => some ('{' :: tail.take (j + 1))

/-- One member of the `family_members` field of the extracted JSON object;
`none` models a missing key. -/
structure ExtractedMember where
  name : Option String
  relation : Option String
  details : Option String
deriving DecidableEq

/-- The JSON object the extraction prompt asks the model for. -/
structure Extracted where
  family_members : List ExtractedMember
  health_mentions : List String
  interests : List String
  important_stories : List String
  topics_discussed : List String
  emotional_state : Option String
  needs_followup : Option String
deriving DecidableEq

/-- The update loop after a successful parse (source lines 205-223): fold
each extracted field into the store through the corresponding mutator, in
source order (family, interests, health, stories, topics).  A family
member whose `name` is missing or empty (falsy) is skipped;
`relation` defaults to "family" and `details` to the empty string. -/
def applyExtracted (e : Extracted) (s : MemState) (now : String) : MemState :=
  let s1 := e.family_members.foldl
    (fun st m =>
      match m.name with
      | some n =>
        if n = "" then st
        else add_family_member st n (m.relation.getD "family") (m.details.getD "") now
      | none => st)
    s
  let s2 := e.interests.foldl (fun st i => add_interest st i now) s1
  let s3 := e.health_mentions.foldl (fun st h => add_health_note st h now) s2
  let s4 := e.important_stories.foldl (fun st t => add_story st t now) s3
  e.topics_discussed.foldl (fun st t => add_recent_topic st t now) s4

/-- `extract_memories_from_conversation` (source lines 165-230).  The
provider call is abstracted by its response text and `json.loads` by
`parse` (`none` models a `JSONDecodeError`).  The result pairs the
returned dict (`none` for the empty dict) with the resulting store state:
no span or a failed parse returns the empty dict and leaves the store
untouched; a parsed object is folded into the store. -/
def extract_memories_from_conversation (parse : List Char → Option Extracted)
    (s : MemState) (responseText : List Char) (now : String) :
    Option Extracted × MemState :=
  match extractSpan responseText with
  | none => (none, s)
  | some span =>
    match parse span with
    | none => (none, s)
    | some e => (some e, applyExtracted e s now)

/-- One entry of `GrandPalBrain.conversation_history`. -/
structure Turn where
  role : String
  content : String
deriving DecidableEq

/-- The parts of a `GrandPalBrain` that `get_response` and
`get_conversation_transcript` read or write. -/
structure Brain where
  user_name : String
  conversation_history : List Turn
  memory : MemState
deriving DecidableEq

/-- The fixed apologetic fallback returned by `get_response` when the
model call raises. -/
def fallbackReply (user_name : String) : String :=
  "I'm sorry, " ++ user_name ++ ", I had a little trouble there. Could you say that again?"

/-- `GrandPalBrain.get_response` (source lines 53-76).  `modelCall` is the
outcome of `self.chat.send_message`: `some text` on success, `none` when
it raises.  The user turn is appended before the model call, so it
survives a failure; the assistant turn is appended only on success, and
the fallback reply is returned without being recorded. -/
def get_response (modelCall : Option String) (b : Brain) (user_message : String) :
    String × Brain :=
  let userTurn : Turn := { role := "user", content := user_message }
  let b1 := { b with conversation_history := b.conversation_history ++ [userTurn] }
  match modelCall with
  | some assistant_message =>
    let asstTurn : Turn := { role := "assistant", content := assistant_message }
    let b2 := { b1 with conversation_history := b1.conversation_history ++ [asstTurn] }
    (assistant_message, b2)
  | none => (fallbackReply b.user_name, b1)

/-- One transcript line of `get_conversation_transcript`: the speaker
label (`GrandPal` for assistant turns, the user name otherwise), a colon
and the content, closed by a blank line. -/
def transcriptLine (user_name : String) (msg : Turn) : String :=
  (if msg.role = "assistant" then "GrandPal" else user_name) ++ ": " ++ msg.content ++ "\n\n"

/-- `GrandPalBrain.get_conversation_transcript` (source lines 124-130). -/
def get_conversation_transcript (b : Brain) : String :=
  b.conversation_history.foldl (fun t msg => t ++ transcriptLine b.user_name msg) ""

/-- The persistence contract of the spec, evaluated after a mutator call
at time `now`: the record is stamped with `now` and the file holds exactly
the in-memory record (read-after-write consistency). -/
def persistedAt (s : MemState) (now : String) : Prop :=
  s.memories.last_conversation = some now ∧ s.file = FileContent.stored s.memories

end GrandPal

namespace GrandPal

theorem takeLast_of_length_le {n : Nat} {l : List α} (h : l.length ≤ n) :
    takeLast n l = l := by
  unfold takeLast
  rw [List.take_of_length_le (by simpa using h), List.reverse_reverse]

theorem length_takeLast (n : Nat) (l : List α) : (takeLast n l).length ≤ n := by
  unfold takeLast
  simp [List.length_take]

theorem map_takeLast (f : α → β) (n : Nat) (l : List α) :
    (takeLast n l).map f = takeLast n (l.map f) := by
  unfold takeLast
  simp [List.map_reverse, List.map_take]

theorem takeLast_append_takeLast (n : Nat) (xs ys : List α) :
    takeLast n (takeLast n xs ++ ys) = takeLast n (xs ++ ys) := by
  unfold takeLast
  rw [List.reverse_append, List.reverse_reverse, List.reverse_append]
  congr 1
  rw [List.take_append_eq_append_take, List.take_append_eq_append_take, List.take_take]
  congr 1
  · rw [min_eq_left (Nat.sub_le n ys.reverse.length)]

theorem add_family_member_fields (s : MemState) (n r d now : String) :
    (add_family_member s n r d now).memories.profile.health_notes
        = s.memories.profile.health_notes ∧
      (add_family_member s n r d now).memories.recent_topics = s.memories.recent_topics ∧
      (add_family_member s n r d now).memories.stories = s.memories.stories ∧
      (add_family_member s n r d now).memories.profile.interests
        = s.memories.profile.interests := by
  rcases h : updateMember n r d s.memories.profile.family_members with _ | f2 <;>
    simp [add_family_member, h, save]

theorem add_interest_fields (s : MemState) (i now : String) :
    (add_interest s i now).memories.profile.health_notes = s.memories.profile.health_notes ∧
      (add_interest s i now).memories.recent_topics = s.memories.recent_topics ∧
      (add_interest s i now).memories.stories = s.memories.stories := by
  by_cases h : strLower i ∈ s.memories.profile.interests.map strLower <;>
    simp [add_interest, h, save]

theorem add_health_note_fields (s : MemState) (note now : String) :
    (add_health_note s note now).memories.profile.health_notes
        = takeLast 10 (s.memories.profile.health_notes ++ [note]) ∧
      (add_health_note s note now).memories.recent_topics = s.memories.recent_topics ∧
      (add_health_note s note now).memories.stories = s.memories.stories ∧
      (add_health_note s note now).memories.profile.interests
        = s.memories.profile.interests :=
  ⟨rfl, rfl, rfl, rfl⟩

theorem add_recent_topic_fields (s : MemState) (topic now : String) :
    (add_recent_topic s topic now).memories.recent_topics
        = takeLast 5 (s.memories.recent_topics ++ [topic]) ∧
      (add_recent_topic s topic now).memories.profile.health_notes
        = s.memories.profile.health_notes ∧
      (add_recent_topic s topic now).memories.stories = s.memories.stories ∧
      (add_recent_topic s topic now).memories.profile.interests
        = s.memories.profile.interests :=
  ⟨rfl, rfl, rfl, rfl⟩

theorem add_story_fields (s : MemState) (t now : String) :
    (add_story s t now).memories.stories
        = takeLast 20 (s.memories.stories ++ [{ summary := t, date := now }]) ∧
      (add_story s t now).memories.profile.health_notes = s.memories.profile.health_notes ∧
      (add_story s t now).memories.recent_topics = s.memories.recent_topics ∧
      (add_story s t now).memories.profile.interests = s.memories.profile.interests :=
  ⟨rfl, rfl, rfl, rfl⟩

theorem increment_conversation_fields (s : MemState) (now : String) :
    (increment_conversation s now).memories.profile.health_notes
        = s.memories.profile.health_notes ∧
      (increment_conversation s now).memories.recent_topics = s.memories.recent_topics ∧
      (increment_conversation s now).memories.stories = s.memories.stories ∧
      (increment_conversation s now).memories.profile.interests
        = s.memories.profile.interests :=
  ⟨rfl, rfl, rfl, rfl⟩

theorem runOps_health (ops : List (String × Op)) : ∀ (s : MemState),
    s.memories.profile.health_notes.length ≤ 10 →
    (runOps s ops).memories.profile.health_notes
      = takeLast 10 (s.memories.profile.health_notes ++ healthArgs ops) := by
  induction ops with
  | nil =>
    intro s h1
    simp only [runOps, healthArgs, List.filterMap_nil, List.append_nil]
    exact (takeLast_of_length_le h1).symm
  | cons p rest ih =>
    intro s h1
    obtain ⟨now, op⟩ := p
    cases op with
    | famMember n r d =>
      have hf := add_family_member_fields s n r d now
      have ih2 := ih (add_family_member s n r d now) (by rw [hf.1]; exact h1)
      simpa [runOps, applyOp, healthArgs, hf.1] using ih2
    | interest i =>
      have hf := add_interest_fields s i now
      have ih2 := ih (add_interest s i now) (by rw [hf.1]; exact h1)
      simpa [runOps, applyOp, healthArgs, hf.1] using ih2
    | healthNote note =>
      have hf := add_health_note_fields s note now
      have ih2 := ih (add_health_note s note now) (by rw [hf.1]; exact length_takeLast 10 _)
      have step : runOps s ((now, Op.healthNote note) :: rest)
          = runOps (add_health_note s note now) rest := rfl
      rw [step, ih2, hf.1, takeLast_append_takeLast]
      simp [healthArgs, List.filterMap_cons]
    | recentTopic t =>
      have hf := add_recent_topic_fields s t now
      have ih2 := ih (add_recent_topic s t now) (by rw [hf.2.1]; exact h1)
      simpa [runOps, applyOp, healthArgs, hf.2.1] using ih2
    | story t =>
      have hf := add_story_fields s t now
      have ih2 := ih (add_story s t now) (by rw [hf.2.1]; exact h1)
      simpa [runOps, applyOp, healthArgs, hf.2.1] using ih2
    | incConversation =>
      have hf := increment_conversation_fields s now
      have ih2 := ih (increment_conversation s now) (by rw [hf.1]; exact h1)
      simpa [runOps, applyOp, healthArgs, hf.1] using ih2

theorem runOps_topics (ops : List (String × Op)) : ∀ (s : MemState),
    s.memories.recent_topics.length ≤ 5 →
    (runOps s ops).memories.recent_topics
      = takeLast 5 (s.memories.recent_topics ++ topicArgs ops) := by
  induction ops with
  | nil =>
    intro s h1
    simp only [runOps, topicArgs, List.filterMap_nil, List.append_nil]
    exact (takeLast_of_length_le h1).symm
  | cons p rest ih =>
    intro s h1
    obtain ⟨now, op⟩ := p
    cases op with
    | famMember n r d =>
      have hf := add_family_member_fields s n r d now
      have ih2 := ih (add_family_member s n r d now) (by rw [hf.2.1]; exact h1)
      simpa [runOps, applyOp, topicArgs, hf.2.1] using ih2
    | interest i =>
      have hf := add_interest_fields s i now
      have ih2 := ih (add_interest s i now) (by rw [hf.2.1]; exact h1)
      simpa [runOps, applyOp, topicArgs, hf.2.1] using ih2
    | healthNote note =>
      have hf := add_health_note_fields s note now
      have ih2 := ih (add_health_note s note now) (by rw [hf.2.1]; exact h1)
      simpa [runOps, applyOp, topicArgs, hf.2.1] using ih2
    | recentTopic t =>
      have hf := add_recent_topic_fields s t now
      have ih2 := ih (add_recent_topic s t now) (by rw [hf.1]; exact length_takeLast 5 _)
      have step : runOps s ((now, Op.recentTopic t) :: rest)
          = runOps (add_recent_topic s t now) rest := rfl
      rw [step, ih2, hf.1, takeLast_append_takeLast]
      simp [topicArgs, List.filterMap_cons]
    | story t =>
      have hf := add_story_fields s t now
      have ih2 := ih (add_story s t now) (by rw [hf.2.2.1]; exact h1)
      simpa [runOps, applyOp, topicArgs, hf.2.2.1] using ih2
    | incConversation =>
      have hf := increment_conversation_fields s now
      have ih2 := ih (increment_conversation s now) (by rw [hf.2.1]; exact h1)
      simpa [runOps, applyOp, topicArgs, hf.2.1] using ih2

theorem runOps_stories (ops : List (String × Op)) : ∀ (s : MemState),
    s.memories.stories.length ≤ 20 →
    (runOps s ops).memories.stories.map Story.summary
      = takeLast 20 (s.memories.stories.map Story.summary ++ storyArgs ops) := by
  induction ops with
  | nil =>
    intro s h1
    simp only [runOps, storyArgs, List.filterMap_nil, List.append_nil]
    exact (takeLast_of_length_le (by simpa using h1)).symm
  | cons p rest ih =>
    intro s h1
    obtain ⟨now, op⟩ := p
    cases op with
    | famMember n r d =>
      have hf := add_family_member_fields s n r d now
      have ih2 := ih (add_family_member s n r d now) (by rw [hf.2.2.1]; exact h1)
      simpa [runOps, applyOp, storyArgs, hf.2.2.1] using ih2
    | interest i =>
      have hf := add_interest_fields s i now
      have ih2 := ih (add_interest s i now) (by rw [hf.2.2]; exact h1)
      simpa [runOps, applyOp, storyArgs, hf.2.2] using ih2
    | healthNote note =>
      have hf := add_health_note_fields s note now
      have ih2 := ih (add_health_note s note now) (by rw [hf.2.2.1]; exact h1)
      simpa [runOps, applyOp, storyArgs, hf.2.2.1] using ih2
    | recentTopic t =>
      have hf := add_recent_topic_fields s t now
      have ih2 := ih (add_recent_topic s t now) (by rw [hf.2.2.1]; exact h1)
      simpa [runOps, applyOp, storyArgs, hf.2.2.1] using ih2
    | story t =>
      have hf := add_story_fields s t now
      have ih2 := ih (add_story s t now) (by rw [hf.1]; exact length_takeLast 20 _)
      have step : runOps s ((now, Op.story t) :: rest)
          = runOps (add_story s t now) rest := rfl
      rw [step, ih2, hf.1, map_takeLast, List.map_append, takeLast_append_takeLast]
      simp [storyArgs, List.filterMap_cons, List.map_append, List.append_assoc]
    | incConversation =>
      have hf := increment_conversation_fields s now
      have ih2 := ih (increment_conversation s now) (by rw [hf.2.2.1]; exact h1)
      simpa [runOps, applyOp, storyArgs, hf.2.2.1] using ih2

theorem persistedAt_save (s : MemState) (now : String) : persistedAt (save s now) now :=
  ⟨rfl, rfl⟩

theorem add_interest_of_mem (s : MemState) (i now : String)
    (h : strLower i ∈ s.memories.profile.interests.map strLower) :
    add_interest s i now = s := by
  simp [add_interest, h]

theorem add_interest_of_not_mem (s : MemState) (i now : String)
    (h : strLower i ∉ s.memories.profile.interests.map strLower) :
    (add_interest s i now).memories.profile.interests
      = s.memories.profile.interests ++ [i] := by
  simp [add_interest, h, save]

theorem runOps_interests_nodup (ops : List (String × Op)) : ∀ (s : MemState),
    (s.memories.profile.interests.map strLower).Nodup →
    ((runOps s ops).memories.profile.interests.map strLower).Nodup := by
  induction ops with
  | nil => intro s h; simpa [runOps] using h
  | cons p rest ih =>
    intro s h
    obtain ⟨now, op⟩ := p
    cases op with
    | famMember n r d =>
      have hf := add_family_member_fields s n r d now
      exact ih (add_family_member s n r d now) (by rw [hf.2.2.2]; exact h)
    | interest i =>
      by_cases hm : strLower i ∈ s.memories.profile.interests.map strLower
      · have he := add_interest_of_mem s i now hm
        exact ih (add_interest s i now) (by rw [he]; exact h)
      · have hadd := add_interest_of_not_mem s i now hm
        refine ih (add_interest s i now) ?_
        rw [hadd, List.map_append]
        refine List.Nodup.append h (List.nodup_singleton _) ?_
        simpa [List.disjoint_singleton] using hm
    | healthNote note =>
      have hf := add_health_note_fields s note now
      exact ih (add_health_note s note now) (by rw [hf.2.2.2]; exact h)
    | recentTopic t =>
      have hf := add_recent_topic_fields s t now
      exact ih (add_recent_topic s t now) (by rw [hf.2.2.2]; exact h)
    | story t =>
      have hf := add_story_fields s t now
      exact ih (add_story s t now) (by rw [hf.2.2.2]; exact h)
    | incConversation =>
      have hf := increment_conversation_fields s now
      exact ih (increment_conversation s now) (by rw [hf.2.2.2]; exact h)

theorem updateMember_none : ∀ (l : List FamilyMember) (n r d : String),
    (∀ m ∈ l, strLower m.name ≠ strLower n) → updateMember n r d l = none := by
  intro l
  induction l with
  | nil => intro n r d h; rfl
  | cons m rest ih =>
    intro n r d h
    have hm : strLower m.name ≠ strLower n := h m (by simp)
    simp only [updateMember, if_neg hm, Option.map_eq_none']
    exact ih n r d (fun x hx => h x (by simp [hx]))

theorem updateMember_append : ∀ (l : List FamilyMember) (x : FamilyMember) (n r d : String),
    (∀ m ∈ l, strLower m.name ≠ strLower n) → strLower x.name = strLower n →
    updateMember n r d (l ++ [x])
      = some (l ++ [{ x with relation := r, details := if d = "" then x.details else d }]) := by
  intro l
  induction l with
  | nil => intro x n r d h hx; simp [updateMember, hx]
  | cons m rest ih =>
    intro x n r d h hx
    have hm : strLower m.name ≠ strLower n := h m (by simp)
    have ih2 := ih x n r d (fun y hy => h y (by simp [hy])) hx
    simp [updateMember, hm, ih2]

theorem updateMember_length : ∀ (l : List FamilyMember) (n r d : String),
    (∃ m ∈ l, strLower m.name = strLower n) →
    ∃ l2, updateMember n r d l = some l2 ∧ l2.length = l.length := by
  intro l
  induction l with
  | nil => intro n r d h; simp at h
  | cons m rest ih =>
    intro n r d h
    by_cases hm : strLower m.name = strLower n
    · refine ⟨{ m with relation := r, details := if d = "" then m.details else d } :: rest,
        ?_, ?_⟩ <;> simp [updateMember, hm]
    · obtain ⟨x, hx, hxn⟩ := h
      rcases List.mem_cons.mp hx with hx1 | hx2
      · exact absurd (hx1 ▸ hxn) hm
      · obtain ⟨l2, hl2, hlen⟩ := ih n r d ⟨x, hx2, hxn⟩
        exact ⟨m :: l2, by simp [updateMember, hm, hl2], by simp [hlen]⟩

/-- C4: loading a record for a user id always yields a fully initialized
record: with the file absent or corrupt it is the default record, whose
fields all carry the documented defaults; with a previously stored record
it is that record — and the only writer, `save`, always stores a complete
record. -/
theorem load_fully_initialized : ∀ (user_name now : String),
    loadMemories user_name now FileContent.absent = defaultMemories user_name now ∧
    loadMemories user_name now FileContent.corrupt = defaultMemories user_name now ∧
    (∀ m, loadMemories user_name now (FileContent.stored m) = m) ∧
    (∀ (s : MemState) (t : String), (save s t).file = FileContent.stored (save s t).memories) ∧
    (defaultMemories user_name now).user_name = user_name ∧
    (defaultMemories user_name now).created_at = now ∧
    (defaultMemories user_name now).last_conversation = none ∧
    (defaultMemories user_name now).profile.family_members = [] ∧
    (defaultMemories user_name now).profile.health_notes = [] ∧
    (defaultMemories user_name now).profile.interests = [] ∧
    (defaultMemories user_name now).profile.important_dates = [] ∧
    (defaultMemories user_name now).profile.location = none ∧
    (defaultMemories user_name now).profile.occupation = none ∧
    (defaultMemories user_name now).stories = [] ∧
    (defaultMemories user_name now).recent_topics = [] ∧
    (defaultMemories user_name now).conversation_count = 0 := by
  intro user_name now
  refine ⟨rfl, rfl, fun m => rfl, fun s t => rfl,
    rfl, rfl, rfl, rfl, rfl, rfl, rfl, rfl, rfl, rfl, rfl, rfl⟩

/-- C8: a storage file with corrupt, unparseable content is treated
exactly like an absent file: loading raises nothing and yields the same
default-initialized record, the prior content silently discarded. -/
theorem corrupt_file_loads_as_default : ∀ (user_name now : String),
    loadMemories user_name now FileContent.corrupt
        = loadMemories user_name now FileContent.absent ∧
      loadMemories user_name now FileContent.corrupt = defaultMemories user_name now :=
  fun _ _ => ⟨rfl, rfl⟩

/-- C9: when the model call inside `get_response` raises, the call returns
the fixed apologetic fallback string parameterized with the user's name,
and no error reaches the caller (the embedding is a total function). -/
theorem failed_response_returns_fallback : ∀ (b : Brain) (msg : String),
    (get_response none b msg).1
      = "I'm sorry, " ++ b.user_name ++
        ", I had a little trouble there. Could you say that again?" :=
  fun _ _ => rfl

/-- C10: on a failed model call the history has already received the user
turn and receives no assistant turn — it grows by exactly one entry, and
the fallback reply is not recorded — whereas a successful call grows it by
two; the failed user prompt still appears at the end of the transcript
handed to end-of-session extraction. -/
theorem failed_response_history_effect : ∀ (b : Brain) (msg : String),
    (get_response none b msg).2.conversation_history
        = b.conversation_history ++ [{ role := "user", content := msg }] ∧
      (get_response none b msg).2.conversation_history.length
        = b.conversation_history.length + 1 ∧
      (∀ reply, (get_response (some reply) b msg).2.conversation_history
        = b.conversation_history ++
            [{ role := "user", content := msg }, { role := "assistant", content := reply }]) ∧
      get_conversation_transcript (get_response none b msg).2
        = get_conversation_transcript b ++ (b.user_name ++ (": " ++ (msg ++ "\n\n"))) := by
  intro b msg
  refine ⟨rfl, by simp [get_response], fun reply => by simp [get_response], ?_⟩
  simp [get_response, get_conversation_transcript, List.foldl_append, transcriptLine,
    String.append_assoc]

/-- C2: `get_context_for_conversation` is a pure function of the record
equal to the spec's contextSummary algorithm (name line; first 5 family
members with details omitted when absent; last 3 health notes; first 5
interests; last 3 topics; conversation-count line when positive; empty
sections omitted; newline-joined), and on a fresh default record it
returns only the name line. -/
theorem context_summary_matches_spec : ∀ (user_name now : String) (mem : Memories),
    get_context_for_conversation user_name mem = contextSummarySpec user_name mem ∧
    get_context_for_conversation user_name (defaultMemories user_name now)
      = "User's name: " ++ user_name := by
  intro un now mem
  constructor
  · obtain ⟨mun, ca, lc, prof, st, rt, cc⟩ := mem
    obtain ⟨fam, hn, ints, idates, loc, occ⟩ := prof
    cases fam <;> cases hn <;> cases ints <;> cases rt <;> cases cc <;>
      simp [get_context_for_conversation, contextSummarySpec]
  · rfl

/-- C3: starting from a default-initialized record, after any sequence of
mutator calls the bounded lists hold exactly the most recent appended
elements in original relative order (FIFO eviction from the front): the
last 10 health notes, the last 5 recent topics, and the last 20 story
summaries. -/
theorem bounded_lists_keep_most_recent :
    ∀ (user_name now0 : String) (ops : List (String × Op)),
    (runOps (initState user_name now0 FileContent.absent) ops).memories.profile.health_notes
        = takeLast 10 (healthArgs ops) ∧
      (runOps (initState user_name now0 FileContent.absent) ops).memories.recent_topics
        = takeLast 5 (topicArgs ops) ∧
      (runOps (initState user_name now0 FileContent.absent) ops).memories.stories.map
          Story.summary
        = takeLast 20 (storyArgs ops) := by
  intro un n0 ops
  have h1 := runOps_health ops (initState un n0 FileContent.absent)
    (by simp [initState, loadMemories, defaultMemories])
  have h2 := runOps_topics ops (initState un n0 FileContent.absent)
    (by simp [initState, loadMemories, defaultMemories])
  have h3 := runOps_stories ops (initState un n0 FileContent.absent)
    (by simp [initState, loadMemories, defaultMemories])
  exact ⟨by simpa [initState, loadMemories, defaultMemories] using h1,
    by simpa [initState, loadMemories, defaultMemories] using h2,
    by simpa [initState, loadMemories, defaultMemories] using h3⟩

/-- C5: `add_family_member` deduplicates case-insensitively on the name
and updates in place: the Emma/emma scenario from a fresh record yields a
single member keeping the original casing with updated relation and
details, and in general a call whose name matches an existing member
case-insensitively never changes the number of members. -/
theorem family_member_dedup_case_insensitive :
    ((add_family_member (add_family_member (initState "Margaret" "T0" FileContent.absent)
          "Emma" "granddaughter" "" "T1")
        "emma" "granddaughter" "plays soccer" "T2").memories.profile.family_members
      = [{ name := "Emma", relation := "granddaughter", details := "plays soccer" }]) ∧
    (∀ (s : MemState) (now1 now2 : String),
      (∀ m ∈ s.memories.profile.family_members, strLower m.name ≠ strLower "Emma") →
      (add_family_member (add_family_member s "Emma" "granddaughter" "" now1)
          "emma" "granddaughter" "plays soccer" now2).memories.profile.family_members
        = s.memories.profile.family_members ++
            [{ name := "Emma", relation := "granddaughter", details := "plays soccer" }]) ∧
    ∀ (s : MemState) (n r d now : String),
      (∃ m ∈ s.memories.profile.family_members, strLower m.name = strLower n) →
      (add_family_member s n r d now).memories.profile.family_members.length
        = s.memories.profile.family_members.length := by
  refine ⟨rfl, ?_, ?_⟩
  · intro s now1 now2 h
    have hEe : strLower "Emma" = strLower "emma" := rfl
    have h1 : updateMember "Emma" "granddaughter" "" s.memories.profile.family_members
        = none := updateMember_none _ "Emma" "granddaughter" "" h
    have hfam1 :
        (add_family_member s "Emma" "granddaughter" "" now1).memories.profile.family_members
          = s.memories.profile.family_members ++
              [{ name := "Emma", relation := "granddaughter", details := "" }] := by
      simp [add_family_member, h1, save]
    have h2 := updateMember_append s.memories.profile.family_members
      { name := "Emma", relation := "granddaughter", details := "" }
      "emma" "granddaughter" "plays soccer" (fun m hm => hEe ▸ h m hm) rfl
    have h3 : updateMember "emma" "granddaughter" "plays soccer"
          ((add_family_member s "Emma" "granddaughter" "" now1).memories.profile.family_members)
        = some (s.memories.profile.family_members ++
            [{ name := "Emma", relation := "granddaughter", details := "plays soccer" }]) := by
      rw [hfam1]
      simpa using h2
    obtain ⟨t, ht⟩ : ∃ t, add_family_member s "Emma" "granddaughter" "" now1 = t := ⟨_, rfl⟩
    rw [ht] at h3 ⊢
    simp [add_family_member, h3, save]
  · intro s n r d now h
    obtain ⟨l2, hl2, hlen⟩ := updateMember_length s.memories.profile.family_members n r d h
    simp [add_family_member, hl2, save, hlen]

/-- Witness for C5: the Emma then emma scenario on a fresh record appends
exactly one member, and a further call matching the stored member
EMMA-style does not change the member count. -/
theorem family_member_dedup_case_insensitive_witness :
    ((add_family_member (add_family_member (initState "W" "T0" FileContent.absent)
          "Emma" "granddaughter" "" "T1")
        "emma" "granddaughter" "plays soccer" "T2").memories.profile.family_members
      = (initState "W" "T0" FileContent.absent).memories.profile.family_members ++
          [{ name := "Emma", relation := "granddaughter", details := "plays soccer" }]) ∧
    (add_family_member (add_family_member (initState "M" "T0" FileContent.absent)
          "Emma" "granddaughter" "" "T1")
        "EMMA" "sister" "x" "T2").memories.profile.family_members.length
      = (add_family_member (initState "M" "T0" FileContent.absent)
          "Emma" "granddaughter" "" "T1").memories.profile.family_members.length :=
  ⟨family_member_dedup_case_insensitive.2.1 (initState "W" "T0" FileContent.absent)
      "T1" "T2" (by decide),
   family_member_dedup_case_insensitive.2.2
    (add_family_member (initState "M" "T0" FileContent.absent) "Emma" "granddaughter" "" "T1")
    "EMMA" "sister" "x" "T2"
    ⟨{ name := "Emma", relation := "granddaughter", details := "" }, by decide, by decide⟩⟩

/-- C6: interests are deduplicated case-insensitively: after any sequence
of mutator calls from a fresh record the lowered interests list has no
duplicates; re-adding a case-variant duplicate leaves the whole state
unchanged; a genuinely new interest is appended at the end (insertion
order preserved, no bound applied). -/
theorem interests_dedup_case_insensitive :
    (∀ (user_name now0 : String) (ops : List (String × Op)),
      ((runOps (initState user_name now0 FileContent.absent) ops).memories.profile.interests.map
          strLower).Nodup) ∧
    (∀ (s : MemState) (i now : String),
      (strLower i ∈ s.memories.profile.interests.map strLower →
        add_interest s i now = s) ∧
      (strLower i ∉ s.memories.profile.interests.map strLower →
        (add_interest s i now).memories.profile.interests
          = s.memories.profile.interests ++ [i])) := by
  constructor
  · intro un n0 ops
    exact runOps_interests_nodup ops _ (by simp [initState, loadMemories, defaultMemories])
  · intro s i now
    exact ⟨fun h => add_interest_of_mem s i now h, fun h => add_interest_of_not_mem s i now h⟩

/-- Witness for C6: re-adding gardening after Gardening leaves the state
unchanged. -/
theorem interests_dedup_case_insensitive_witness :
    add_interest (add_interest (initState "M" "T0" FileContent.absent) "Gardening" "T1")
        "gardening" "T2"
      = add_interest (initState "M" "T0" FileContent.absent) "Gardening" "T1" :=
  (interests_dedup_case_insensitive.2
      (add_interest (initState "M" "T0" FileContent.absent) "Gardening" "T1")
      "gardening" "T2").1 (by decide)

/-- C7: extraction given a response with no JSON span, or whose span fails
to parse, returns the empty result and leaves the store (in-memory record
and file alike) entirely unchanged, raising nothing. -/
theorem extraction_failure_leaves_store_unchanged :
    ∀ (parse : List Char → Option Extracted) (s : MemState) (text : List Char) (now : String),
    (extractSpan text = none →
      extract_memories_from_conversation parse s text now = (none, s)) ∧
    (∀ span, extractSpan text = some span → parse span = none →
      extract_memories_from_conversation parse s text now = (none, s)) := by
  intro parse s text now
  constructor
  · intro h
    simp [extract_memories_from_conversation, h]
  · intro span h hp
    simp [extract_memories_from_conversation, h, hp]

/-- Witness for C7: a braceless response, and a braced response whose span
parses to nothing, both leave a fresh store untouched. -/
theorem extraction_failure_leaves_store_unchanged_witness :
    extract_memories_from_conversation (fun _ => none)
        (initState "M" "T0" FileContent.absent) ('h' :: 'i' :: []) "T1"
      = (none, initState "M" "T0" FileContent.absent) ∧
    extract_memories_from_conversation (fun _ => none)
        (initState "M" "T0" FileContent.absent) ('a' :: '{' :: 'x' :: '}' :: []) "T1"
      = (none, initState "M" "T0" FileContent.absent) :=
  ⟨(extraction_failure_leaves_store_unchanged (fun _ => none)
      (initState "M" "T0" FileContent.absent) ('h' :: 'i' :: []) "T1").1 (by decide),
   (extraction_failure_leaves_store_unchanged (fun _ => none)
      (initState "M" "T0" FileContent.absent) ('a' :: '{' :: 'x' :: '}' :: []) "T1").2
     ('{' :: 'x' :: '}' :: []) (by decide) rfl⟩

/-- C1 (amended): add_family_member, add_health_note, add_recent_topic,
add_story and increment_conversation always stamp `last_conversation`
with the current time and write the entire record to the file before
returning, and so does add_interest when its argument is new; but an
add_interest call whose argument duplicates an existing interest
case-insensitively is a complete no-op — it neither stamps the record nor
writes the file. -/
theorem mutators_persist_amended : ∀ (s : MemState) (now : String),
    (∀ n r d, persistedAt (add_family_member s n r d now) now) ∧
    (∀ note, persistedAt (add_health_note s note now) now) ∧
    (∀ t, persistedAt (add_recent_topic s t now) now) ∧
    (∀ t, persistedAt (add_story s t now) now) ∧
    persistedAt (increment_conversation s now) now ∧
    (∀ i, (strLower i ∉ s.memories.profile.interests.map strLower →
            persistedAt (add_interest s i now) now) ∧
          (strLower i ∈ s.memories.profile.interests.map strLower →
            add_interest s i now = s)) := by
  intro s now
  refine ⟨fun n r d => ?_, fun note => persistedAt_save _ now, fun t => persistedAt_save _ now,
    fun t => persistedAt_save _ now, persistedAt_save _ now,
    fun i => ⟨fun h => ?_, fun h => add_interest_of_mem s i now h⟩⟩
  · rcases h2 : updateMember n r d s.memories.profile.family_members with _ | f2 <;>
      simp [add_family_member, h2, persistedAt, save]
  · simp [add_interest, h, persistedAt, save]

/-- Witness for C1 (amended): a fresh interest is persisted with the call
time stamped. -/
theorem mutators_persist_amended_witness :
    persistedAt (add_interest (initState "M" "T0" FileContent.absent) "reading" "T1") "T1" :=
  ((mutators_persist_amended (initState "M" "T0" FileContent.absent) "T1").2.2.2.2.2
    "reading").1 (by decide)

/-- Counterexample to C1 as stated: an add_interest call whose argument
duplicates the stored interest gardening case-insensitively returns
without updating `last_conversation` to the current time (and without
writing). -/
theorem mutators_persist_counterexample :
    (add_interest (add_interest (initState "Margaret" "T0" FileContent.absent)
        "gardening" "T0") "Gardening" "T1").memories.last_conversation ≠ some "T1" := by
  decide

end GrandPal
